import Mathlib

/-!
Shallow embedding of the periodic-waveform synthesis and PCM encoding core of
`wavgen` (`src/wavgen.c`, first revision, lines 1-954).

Modelling conventions:
* C `double` arithmetic is modelled by exact rational arithmetic (`ℚ`), the
  idealised real semantics the specification is written against.
* The transcendental library functions `sin` and `pow(10, ·)` are modelled by
  abstract function parameters `s, tenPow : ℚ → ℚ`: the C program applies them
  to rational arguments (the source's `PI` is the rational literal
  `3.14159265358979323846`), and every structural claim below holds for an
  arbitrary interpretation of them.
* The process-wide generator `rand()` is modelled by an abstract stream
  `rand : ℕ → ℤ`; the `i`-th sample of `applyDither` consumes draws `2*i` and
  `2*i+1`.
* C `while` loops are embedded as fuel-indexed structural recursions; each
  top-level definition supplies fuel that provably dominates the loop's
  iteration count (for the validated parameter ranges, where the C loop
  terminates), so the embedded function agrees with the loop.
* `(size_t)`-casts of nonnegative doubles are truncation, i.e. `Int.floor`
  followed by `Int.toNat`; integer narrowing casts are reduction modulo `2^w`
  (two's complement for the signed widths).
-/

namespace Wavgen

/-- `WaveType` from `src/wavgen.c`. -/
inductive WaveType where
  | sine
  | triangle
  | square
  | saw
  | even
deriving DecidableEq

/-- `SampleFormat` from `src/wavgen.c`. -/
inductive SampleFormat where
  | intPCM
  | floatPCM
deriving DecidableEq

/-- The synthesis-relevant fields of `Parameters` from `src/wavgen.c`
(`freqCount` is the length of `freqs`; `outputFile` plays no role in the
synthesis/encoding core). -/
structure Parameters where
  freqs : List ℚ
  durationSecs : ℚ
  amplitude : ℚ
  sampleRate : ℕ
  bitsPerSample : ℕ
  sampleFormat : SampleFormat
  waveType : WaveType
  applyDither : Bool

/-! ## Period Sizer (`waveChunkGenerate`, lines 709-738) -/

/-- Lines 711-714: `lowestFreq = p->freqs[0]`, then scan for a smaller one. -/
def lowestFreq : List ℚ → ℚ
  | [] => 0
  | f :: fs => fs.foldl min f

/-- Line 717: `baseSampleCount = 1.0 / lowestFreq * p->sampleRate`. -/
def sizerBase (p : Parameters) : ℚ := 1 / lowestFreq p.freqs * p.sampleRate

/-- Line 716: `maxSamples = p->durationSecs * p->sampleRate`. -/
def sizerMax (p : Parameters) : ℚ := p.durationSecs * p.sampleRate

/-- Lines 720-722: `while (sampleCount != (size_t)sampleCount && sampleCount <
maxSamples) sampleCount += baseSampleCount;`.  Fuel-indexed embedding of the
loop body; the guard `n ≠ ⌊n⌋` is the C integrality test (the values are
positive, so the `(size_t)` truncation is the floor). -/
def sizerLoop : ℕ → ℚ → ℚ → ℚ → ℚ
  | 0, _, _, n => n
  | fuel + 1, base, maxS, n =>
    if n ≠ (⌊n⌋ : ℚ) ∧ n < maxS then sizerLoop fuel base maxS (n + base) else n

/-- Fuel dominating the iteration count of `sizerLoop` (the count grows by
`base` each round and the loop is over once it reaches `maxS`). -/
def sizerFuel (base maxS : ℚ) : ℕ := (⌊maxS / base⌋).toNat + 2

/-- The accumulated sample count after the integral-period loop. -/
def sizerResult (p : Parameters) : ℚ :=
  sizerLoop (sizerFuel (sizerBase p) (sizerMax p)) (sizerBase p) (sizerMax p) (sizerBase p)

/-- Line 726: `while (sampleCount < p->sampleRate) sampleCount +=
baseSampleCount;` (dither extension), fuel-indexed. -/
def ditherLoop : ℕ → ℚ → ℚ → ℚ → ℚ
  | 0, _, _, n => n
  | fuel + 1, base, rate, n =>
    if n < rate then ditherLoop fuel base rate (n + base) else n

/-- Fuel dominating the iteration count of `ditherLoop`. -/
def ditherFuel (base rate : ℚ) : ℕ := (⌊rate / base⌋).toNat + 2

/-- Lines 716-727: the real-valued accumulated sample count of one chunk. -/
def waveChunkCountQ (p : Parameters) : ℚ :=
  if p.applyDither then
    ditherLoop (ditherFuel (sizerBase p) (p.sampleRate : ℚ)) (sizerBase p)
      (p.sampleRate : ℚ) (sizerResult p)
  else sizerResult p

/-- Line 734: `calloc(sampleCount, ...)` converts the double count to
`size_t`, truncating; this is the chunk length in samples. -/
def chunkLength (p : Parameters) : ℕ := (⌊waveChunkCountQ p⌋).toNat

/-! ## Harmonic Synthesizer (`addWave`, lines 767-825) -/

/-- The source's `#define PI 3.14159265358979323846` (a rational literal). -/
def PIq : ℚ := 3.14159265358979323846

/-- `SINE_WAVE` macro argument (line 768-769): the rational argument
`(2.0 * PI * freq * factor) / rate * i` handed to `sin`. -/
def sineArg (freq factor rate : ℚ) (i : ℕ) : ℚ :=
  2 * PIq * freq * factor / rate * (i : ℚ)

/-- The per-shape `factor` update at the bottom of each harmonic loop:
`factor += 2.0` (triangle, square), `factor += 1.0` (saw), and for `even`
`if (factor == 1.0) factor = 0.0; factor += 2.0` (lines 789, 799, 809,
819-821). -/
def harmonicNext (type : WaveType) (factor : ℚ) : ℚ :=
  match type with
  | .saw => factor + 1
  | .even => (if factor = 1 then 0 else factor) + 2
  | _ => factor + 2

/-- The sequence of harmonic multipliers `factor` visited by a non-sine
branch of `addWave`, i.e. the values passing the guard
`BELOW_NYQUIST(freq * factor, rate)` = `freq * factor < rate / 2.0`
(line 767), starting from `factor = 1.0`.  Fuel-indexed. -/
def harmonicFactorsAux (type : WaveType) (freq rate : ℚ) : ℕ → ℚ → List ℚ
  | 0, _ => []
  | fuel + 1, factor =>
    if freq * factor < rate / 2 then
      factor :: harmonicFactorsAux type freq rate fuel (harmonicNext type factor)
    else []

/-- Fuel dominating the harmonic loop's iteration count (each round the
factor grows by at least 1 and the loop is over once `factor ≥ rate/(2·freq)`,
for `freq > 0`). -/
def harmonicFuel (freq rate : ℚ) : ℕ := (⌊rate / (2 * freq)⌋).toNat + 2

/-- The harmonic multipliers synthesized by `addWave` for a given shape.
The sine branch (lines 775-779) has no Nyquist loop and always uses the
single factor 1. -/
def harmonicFactors (type : WaveType) (freq rate : ℚ) : List ℚ :=
  match type with
  | .sine => [1]
  | _ => harmonicFactorsAux type freq rate (harmonicFuel freq rate) 1

/-- The coefficient multiplying `sin(...)` for the `j`-th visited factor `k`:
`amp * phase` with `amp = 1/(k*k)` and alternating `phase` for triangle
(lines 781-786), `amp = 4/(k*PI)` for square (line 794), `amp = 1/k` for saw
and even (lines 804, 814).  The triangle's `phase` starts at `-1.0` and is
negated before each use, so the `j`-th use is `(-1)^j`. -/
def harmonicAmp (type : WaveType) (j : ℕ) (k : ℚ) : ℚ :=
  match type with
  | .sine => 1
  | .triangle => 1 / (k * k) * (-1 : ℚ) ^ j
  | .square => 4 / (k * PIq)
  | .saw => 1 / k
  | .even => 1 / k

/-- `addWave(buf, len, type, freq, rate)` (lines 771-825), parametrised by the
model `s` of the C library `sin`.  NOTE the sine branch faithfully reproduces
the source's `buf[i] = SINE_WAVE(...)` (line 777): an assignment, not an
accumulation.  All other branches accumulate with `buf[i] += ...`. -/
def addWave (s : ℚ → ℚ) (buf : List ℚ) (type : WaveType) (freq rate : ℚ) : List ℚ :=
  match type with
  | .sine => buf.mapIdx fun i _ => s (sineArg freq 1 rate i)
  | _ =>
    (harmonicFactors type freq rate).enum.foldl
      (fun b jk =>
        b.mapIdx fun i v => v + s (sineArg freq jk.2 rate i) * harmonicAmp type jk.1 jk.2)
      buf

/-- Lines 740-742: each requested tone is passed through `addWave` on the
shared chunk buffer. -/
def addWaves (s : ℚ → ℚ) (type : WaveType) (rate : ℚ) (freqs : List ℚ)
    (buf : List ℚ) : List ℚ :=
  freqs.foldl (fun b f => addWave s b type f rate) buf

/-- One tone's own harmonic series, synthesized into a fresh zeroed buffer of
`len` samples (what a single `addWave` call contributes on its own). -/
def toneChunk (s : ℚ → ℚ) (type : WaveType) (rate : ℚ) (len : ℕ) (f : ℚ) : List ℚ :=
  addWave s (List.replicate len 0) type f rate

/-- Pointwise sum of two sample buffers (linear superposition). -/
def pointwiseAdd (a b : List ℚ) : List ℚ := a.zipWith (· + ·) b

/-! ## Peak Normalizer (lines 744-756, 926-929) -/

/-- Lines 744-748: the single peak-scanning pass.  The state is
`(posPeak, negPeak)`; note the `else if`, faithfully kept. -/
def peakFold (buf : List ℚ) (pn : ℚ × ℚ) : ℚ × ℚ :=
  buf.foldl
    (fun pn x => if x > pn.1 then (x, pn.2) else if x < pn.2 then (pn.1, x) else pn)
    pn

/-- `decibelsToGain` (lines 926-929): `decibels > -150.0 ?
pow(10.0, decibels * 0.05) : 0.0`, with `pow(10, ·)` modelled by the abstract
`tenPow`. -/
def decibelsToGainM (tenPow : ℚ → ℚ) (decibels : ℚ) : ℚ :=
  if -150 < decibels then tenPow (decibels * 0.05) else 0

/-- Lines 744-756: scan peaks, divide the absolute peak by the gain, and if
the resulting divisor is not exactly 1 divide every sample by it.  For
`gain = 0` the C code divides `absPeak` by `0.0` giving `+inf` (the chunk is
non-silent in every claim below, so `absPeak > 0`), and every sample divided
by `+inf` is `0`; `ℚ`'s `x / 0 = 0` convention yields the same all-zero
buffer. -/
def normalizeChunk (gain : ℚ) (buf : List ℚ) : List ℚ :=
  match buf with
  | [] => []
  | b :: rest =>
    let pn := peakFold rest (b, b)
    let divisor := (if pn.1 > -pn.2 then pn.1 else -pn.2) / gain
    if divisor ≠ 1 then (b :: rest).map (fun x => x / divisor) else b :: rest

/-- `waveChunkGenerate` (lines 709-764): size the period, accumulate each
requested tone, then normalize to the target level. -/
def waveChunkGenerate (s tenPow : ℚ → ℚ) (p : Parameters) : List ℚ :=
  normalizeChunk (decibelsToGainM tenPow p.amplitude)
    (addWaves s p.waveType (p.sampleRate : ℚ) p.freqs (List.replicate (chunkLength p) 0))

/-! ## Ditherer (`applyDither`, lines 910-916) -/

/-- glibc's `RAND_MAX`. -/
def RAND_MAX_C : ℕ := 2147483647

/-- Line 912: `amp = 1.0 / pow(2.0, bits - 1.0) / RAND_MAX`. -/
def ditherAmp (bits : ℕ) : ℚ := 1 / 2 ^ (bits - 1) / (RAND_MAX_C : ℚ)

/-- Lines 910-916: `buf[i] += (double)(rand() - rand()) * amp`, with the two
`rand()` draws of sample `i` modelled as `rand (2*i)` and `rand (2*i+1)`. -/
def applyDitherQ (rand : ℕ → ℤ) (bits : ℕ) (buf : List ℚ) : List ℚ :=
  buf.mapIdx fun i v => v + ((rand (2 * i) - rand (2 * i + 1) : ℤ) : ℚ) * ditherAmp bits

/-- Lines 838-841 of `audioBufferBuild`: dither is applied to the chunk if and
only if the format is integer PCM and the dither flag is set. -/
def encoderInput (rand : ℕ → ℤ) (p : Parameters) (w : List ℚ) : List ℚ :=
  if p.sampleFormat = SampleFormat.intPCM ∧ p.applyDither = true then
    applyDitherQ rand p.bitsPerSample w
  else w

/-! ## Sample Encoder (`audioBufferBuild`, lines 829-902) -/

/-- C `lround`: round to nearest, halfway cases away from zero. -/
def lroundQ (q : ℚ) : ℤ := if 0 ≤ q then ⌊q + 1 / 2⌋ else ⌈q - 1 / 2⌉

/-- Line 858: `maxInt = (size_t)(pow(2.0, bits - 1.0) - 1.0)` (exact for the
supported widths). -/
def maxIntOf (bits : ℕ) : ℤ := 2 ^ (bits - 1) - 1

/-- Narrowing an integer to a `w`-bit two's-complement value (the behaviour of
the C casts to `intN_t` on the targeted implementations). -/
def toIntWrap (w : ℕ) (x : ℤ) : ℤ := (x + 2 ^ (w - 1)) % 2 ^ w - 2 ^ (w - 1)

/-- Lines 860-865: `(uint8_t)lround(src[i] * maxInt + offset)` with
`offset = 128`; conversion to `uint8_t` is reduction mod 256. -/
def encodeInt8 (x : ℚ) : ℤ := lroundQ (x * maxIntOf 8 + 128) % 256

/-- Lines 866-870: `(int16_t)lround(src[i] * maxInt)`. -/
def encodeInt16 (x : ℚ) : ℤ := toIntWrap 16 (lroundQ (x * maxIntOf 16))

/-- Lines 871-879: `val = (int32_t)lround(src[i] * maxInt)` then the three
bytes `(int8_t)(val >> 0)`, `(int8_t)(val >> 8)`, `(int8_t)(val >> 16)` in
that order; an arithmetic right shift is `Int.fdiv` by the power of two, and
the byte pattern stored for an `int8_t` is its value mod 256. -/
def encodeInt24 (x : ℚ) : List ℤ :=
  (List.range 3).map fun j =>
    (toIntWrap 32 (lroundQ (x * maxIntOf 24))).fdiv (2 ^ (8 * j)) % 256

/-- Lines 880-884: `(int32_t)lround(src[i] * maxInt)`. -/
def encodeInt32 (x : ℚ) : ℤ := toIntWrap 32 (lroundQ (x * maxIntOf 32))

/-- The low `nbytes` bytes of an integer, least-significant byte first (the
little-endian layout the spec prescribes). -/
def intBytesLE (nbytes : ℕ) (x : ℤ) : List ℕ :=
  (List.range nbytes).map fun j => (x % 2 ^ (8 * nbytes)).toNat / 2 ^ (8 * j) % 256

/-- The byte sequence one integer-PCM sample contributes to the output buffer
(little-endian host, as the big-endian fix-up of line 899 is a no-op there). -/
def sampleBytes (bits : ℕ) (x : ℚ) : List ℕ :=
  match bits with
  | 8 => [(encodeInt8 x).toNat]
  | 16 => (intBytesLE 2 (lroundQ (x * maxIntOf 16)))
  | 24 => (encodeInt24 x).map Int.toNat
  | 32 => (intBytesLE 4 (lroundQ (x * maxIntOf 32)))
  | _ => []

/-- The encoded output: a byte stream for integer PCM; for floating-point PCM
the (possibly narrowed) sample stream handed to the float serializer, which is
a function of these samples alone. -/
inductive Encoded where
  | ints : List ℕ → Encoded
  | floats : List ℚ → Encoded
deriving DecidableEq

/-- `audioBufferBuild` (lines 829-902): generate the chunk, apply dither when
applicable (lines 838-841), then quantize/encode per sample format. -/
def audioBufferBuildM (s tenPow : ℚ → ℚ) (rand : ℕ → ℤ) (p : Parameters) : Encoded :=
  let w := waveChunkGenerate s tenPow p
  let src := encoderInput rand p w
  match p.sampleFormat with
  | .intPCM => .ints ((src.map (sampleBytes p.bitsPerSample)).flatten)
  | .floatPCM => .floats src

/-! ## Chunk Tiler (`main`, lines 109-117) -/

/-- Lines 109-117: `chunks = p.sampleRate * p.durationSecs / buf.sampleCount`;
`(size_t)chunks` whole chunks are written; then `trailingChunk = chunks -
(size_t)chunks`, and if it is positive, `buf.sampleCount * trailingChunk`
samples (a double implicitly converted to `size_t`, i.e. truncated) of one
more chunk are written. -/
def tilingPlan (count : ℕ) (rate : ℕ) (dur : ℚ) : ℕ × ℕ :=
  let chunks : ℚ := (rate : ℚ) * dur / (count : ℚ)
  let whole : ℕ := (⌊chunks⌋).toNat
  let trailing : ℚ := chunks - (whole : ℚ)
  (whole, if 0 < trailing then (⌊(count : ℚ) * trailing⌋).toNat else 0)

/-! ## Lemmas: Period Sizer -/

/-- The sizer loop only ever adds `base`: its result is `n` plus a natural
multiple of `base`. -/
theorem sizerLoop_multiple (base maxS : ℚ) :
    ∀ fuel n, ∃ k : ℕ, sizerLoop fuel base maxS n = n + (k : ℚ) * base := by
  intro fuel
  induction fuel with
  | zero => intro n; exact ⟨0, by simp [sizerLoop]⟩
  | succ fuel ih =>
    intro n
    rw [sizerLoop]
    split
    · obtain ⟨k, hk⟩ := ih (n + base)
      exact ⟨k + 1, by rw [hk]; push_cast; ring⟩
    · exact ⟨0, by simp⟩

/-- With enough fuel, the sizer loop runs until its guard fails: the result is
an integral sample count or has reached `maxS`. -/
theorem sizerLoop_post (base maxS : ℚ) (hb : 0 < base) :
    ∀ fuel n, (⌈(maxS - n) / base⌉).toNat < fuel →
      sizerLoop fuel base maxS n = (⌊sizerLoop fuel base maxS n⌋ : ℚ) ∨
        maxS ≤ sizerLoop fuel base maxS n := by
  intro fuel
  induction fuel with
  | zero => intro n h; exact absurd h (Nat.not_lt_zero _)
  | succ fuel ih =>
    intro n hfuel
    rw [sizerLoop]
    split
    · rename_i hguard
      apply ih
      have hlt : 0 < (maxS - n) / base := div_pos (by linarith [hguard.2]) hb
      have hc1 : 1 ≤ ⌈(maxS - n) / base⌉ := Int.ceil_pos.mpr hlt
      have heq : (maxS - (n + base)) / base = (maxS - n) / base - 1 := by
        field_simp
        ring
      rw [heq, Int.ceil_sub_one]
      omega
    · rename_i hguard
      rcases not_and_or.mp hguard with h | h
      · exact Or.inl (not_not.mp h)
      · exact Or.inr (not_lt.mp h)

/-- The top-level fuel of `sizerResult` dominates the loop's iteration count. -/
theorem sizer_fuel_ok (base maxS : ℚ) (hb : 0 < base) :
    (⌈(maxS - base) / base⌉).toNat < sizerFuel base maxS := by
  have h1 : (maxS - base) / base = maxS / base - 1 := by field_simp
  have h2 := Int.ceil_le_floor_add_one (maxS / base)
  rw [sizerFuel, h1, Int.ceil_sub_one]
  omega

/-- The first sizing loop stops exactly when the accumulated count is integral
or covers the whole requested duration. -/
theorem sizerResult_post (p : Parameters) (hb : 0 < sizerBase p) :
    sizerResult p = (⌊sizerResult p⌋ : ℚ) ∨ sizerMax p ≤ sizerResult p :=
  sizerLoop_post _ _ hb _ _ (sizer_fuel_ok _ _ hb)

/-- The accumulated count after the first loop is a positive multiple of the
base period. -/
theorem sizerResult_multiple (p : Parameters) :
    ∃ k : ℕ, 1 ≤ k ∧ sizerResult p = (k : ℚ) * sizerBase p := by
  obtain ⟨k, hk⟩ := sizerLoop_multiple (sizerBase p) (sizerMax p)
    (sizerFuel (sizerBase p) (sizerMax p)) (sizerBase p)
  exact ⟨k + 1, by omega, by rw [sizerResult, hk]; push_cast; ring⟩

/-- The dither loop also only adds `base`. -/
theorem ditherLoop_multiple (base rate : ℚ) :
    ∀ fuel n, ∃ k : ℕ, ditherLoop fuel base rate n = n + (k : ℚ) * base := by
  intro fuel
  induction fuel with
  | zero => intro n; exact ⟨0, by simp [ditherLoop]⟩
  | succ fuel ih =>
    intro n
    rw [ditherLoop]
    split
    · obtain ⟨k, hk⟩ := ih (n + base)
      exact ⟨k + 1, by rw [hk]; push_cast; ring⟩
    · exact ⟨0, by simp⟩

/-- With enough fuel, the dither loop does not stop before reaching `rate`
samples. -/
theorem ditherLoop_ge (base rate : ℚ) (hb : 0 < base) :
    ∀ fuel n, (⌈(rate - n) / base⌉).toNat < fuel →
      rate ≤ ditherLoop fuel base rate n := by
  intro fuel
  induction fuel with
  | zero => intro n h; exact absurd h (Nat.not_lt_zero _)
  | succ fuel ih =>
    intro n hfuel
    rw [ditherLoop]
    split
    · rename_i hguard
      apply ih
      have hlt : 0 < (rate - n) / base := div_pos (by linarith) hb
      have hc1 : 1 ≤ ⌈(rate - n) / base⌉ := Int.ceil_pos.mpr hlt
      have heq : (rate - (n + base)) / base = (rate - n) / base - 1 := by
        field_simp
        ring
      rw [heq, Int.ceil_sub_one]
      omega
    · rename_i hguard
      exact not_lt.mp hguard

/-- The top-level fuel of the dither extension dominates its iteration count,
for any starting count that is at least one base period. -/
theorem dither_fuel_ok (base rate n₀ : ℚ) (hb : 0 < base) (hn : base ≤ n₀) :
    (⌈(rate - n₀) / base⌉).toNat < ditherFuel base rate := by
  have m1 : (rate - n₀) / base ≤ (rate - base) / base :=
    (div_le_div_iff_of_pos_right hb).mpr (by linarith)
  have m2 : (rate - base) / base = rate / base - 1 := by field_simp
  have m3 : ⌈(rate - n₀) / base⌉ ≤ ⌈rate / base⌉ - 1 := by
    calc ⌈(rate - n₀) / base⌉ ≤ ⌈(rate - base) / base⌉ := Int.ceil_le_ceil m1
    _ = ⌈rate / base⌉ - 1 := by rw [m2, Int.ceil_sub_one]
  have m4 := Int.ceil_le_floor_add_one (rate / base)
  rw [ditherFuel]
  omega

/-- The sizer loop never shrinks the count. -/
theorem sizerLoop_le (base maxS : ℚ) (hb : 0 ≤ base) :
    ∀ fuel n, n ≤ sizerLoop fuel base maxS n := by
  intro fuel
  induction fuel with
  | zero => intro n; simp [sizerLoop]
  | succ fuel ih =>
    intro n
    rw [sizerLoop]
    split
    · calc n ≤ n + base := by linarith
      _ ≤ _ := ih (n + base)
    · exact le_refl n

/-- **C2** (Period Sizer).  For parameters with a positive lowest tone,
positive duration and a positive sample rate, the chunk count is computed by
the two accumulation loops of lines 716-727: it is a whole number of base
periods `base = R / f_min`; the first loop stops exactly when the count is
integral or has reached `R·D`; and when the dither flag is set the count —
and hence the truncated `chunkLength` — is at least `R` samples (one
second). -/
theorem periodSizer_spec (p : Parameters) (hf : 0 < lowestFreq p.freqs)
    (hD : 0 < p.durationSecs) (hR : 1 ≤ p.sampleRate)
    (hdither : p.applyDither = true) :
    (∃ k : ℕ, 1 ≤ k ∧ waveChunkCountQ p = (k : ℚ) * sizerBase p) ∧
    (sizerResult p = (⌊sizerResult p⌋ : ℚ) ∨ sizerMax p ≤ sizerResult p) ∧
    (p.sampleRate : ℚ) ≤ waveChunkCountQ p ∧
    p.sampleRate ≤ chunkLength p := by
  have hb : 0 < sizerBase p := by
    rw [sizerBase]
    have hR' : (0 : ℚ) < p.sampleRate := by
      have : (1 : ℚ) ≤ p.sampleRate := by exact_mod_cast hR
      linarith
    positivity
  have hcount : waveChunkCountQ p =
      ditherLoop (ditherFuel (sizerBase p) (p.sampleRate : ℚ)) (sizerBase p)
        (p.sampleRate : ℚ) (sizerResult p) := by
    rw [waveChunkCountQ, hdither]
    simp
  have hstart : sizerBase p ≤ sizerResult p :=
    sizerLoop_le _ _ hb.le _ _
  have hge : (p.sampleRate : ℚ) ≤ waveChunkCountQ p := by
    rw [hcount]
    exact ditherLoop_ge _ _ hb _ _ (dither_fuel_ok _ _ _ hb hstart)
  refine ⟨?_, sizerResult_post p hb, hge, ?_⟩
  · obtain ⟨k₁, hk₁, h₁⟩ := sizerResult_multiple p
    obtain ⟨k₂, h₂⟩ := ditherLoop_multiple (sizerBase p) (p.sampleRate : ℚ)
      (ditherFuel (sizerBase p) (p.sampleRate : ℚ)) (sizerResult p)
    refine ⟨k₁ + k₂, by omega, ?_⟩
    rw [hcount, h₂, h₁]
    push_cast
    ring
  · have hfloor : (p.sampleRate : ℤ) ≤ ⌊waveChunkCountQ p⌋ :=
      Int.le_floor.mpr (by exact_mod_cast hge)
    rw [chunkLength]
    omega

/-- Witness for `periodSizer_spec`: tone 2 Hz, duration 1 s, rate 4 Hz,
dither on.  The base period is 2 samples, the first loop stops immediately
(2 is integral), the dither loop extends to 4, and `chunkLength = 4 ≥ R`. -/
theorem periodSizer_spec_witness :
    (0 : ℚ) < lowestFreq [2] ∧
    ((∃ k : ℕ, 1 ≤ k ∧
        waveChunkCountQ (Parameters.mk [2] 1 (-1) 4 16 .intPCM .sine true) =
          (k : ℚ) * sizerBase (Parameters.mk [2] 1 (-1) 4 16 .intPCM .sine true)) ∧
      (sizerResult (Parameters.mk [2] 1 (-1) 4 16 .intPCM .sine true) =
          (⌊sizerResult (Parameters.mk [2] 1 (-1) 4 16 .intPCM .sine true)⌋ : ℚ) ∨
        sizerMax (Parameters.mk [2] 1 (-1) 4 16 .intPCM .sine true) ≤
          sizerResult (Parameters.mk [2] 1 (-1) 4 16 .intPCM .sine true)) ∧
      ((4 : ℕ) : ℚ) ≤ waveChunkCountQ (Parameters.mk [2] 1 (-1) 4 16 .intPCM .sine true) ∧
      4 ≤ chunkLength (Parameters.mk [2] 1 (-1) 4 16 .intPCM .sine true)) :=
  ⟨by norm_num [lowestFreq],
    periodSizer_spec (Parameters.mk [2] 1 (-1) 4 16 .intPCM .sine true)
      (by norm_num [lowestFreq]) (by norm_num) (by norm_num) rfl⟩

/-- **C8** (degenerate period).  If no positive multiple of the base period
below the duration bound `R·D` is integral, the sizing loop still terminates:
it stops at the first count at or past `R·D`, which is again a whole number
of (fractional-length) cycles, and no error condition exists on this path in
the source. -/
theorem degeneratePeriod_accepted (p : Parameters) (hf : 0 < lowestFreq p.freqs)
    (hR : 1 ≤ p.sampleRate)
    (hdeg : ∀ k : ℕ, 1 ≤ k → (k : ℚ) * sizerBase p < sizerMax p →
      (k : ℚ) * sizerBase p ≠ (⌊((k : ℚ) * sizerBase p)⌋ : ℚ)) :
    sizerMax p ≤ sizerResult p ∧
    ∃ k : ℕ, 1 ≤ k ∧ sizerResult p = (k : ℚ) * sizerBase p := by
  have hb : 0 < sizerBase p := by
    rw [sizerBase]
    have hR' : (0 : ℚ) < p.sampleRate := by
      have : (1 : ℚ) ≤ p.sampleRate := by exact_mod_cast hR
      linarith
    positivity
  obtain ⟨k, hk1, hk⟩ := sizerResult_multiple p
  refine ⟨?_, k, hk1, hk⟩
  by_contra hlt
  push_neg at hlt
  rcases sizerResult_post p hb with hint | hge
  · exact hdeg k hk1 (hk ▸ hlt) (by rw [← hk]; exact hint)
  · exact absurd hge (not_le.mpr hlt)

/-- Witness for `degeneratePeriod_accepted`: tone 2 Hz at rate 3 Hz for 2/3 s.
The base period is 1.5 samples and never accumulates to an integer below
`R·D = 2`; the loop stops at 3 samples (two fractional cycles) with no
error. -/
theorem degeneratePeriod_accepted_witness :
    (0 : ℚ) < lowestFreq [2] ∧
    (sizerMax (Parameters.mk [2] (2/3) (-1) 3 16 .intPCM .sine false) ≤
        sizerResult (Parameters.mk [2] (2/3) (-1) 3 16 .intPCM .sine false) ∧
      ∃ k : ℕ, 1 ≤ k ∧
        sizerResult (Parameters.mk [2] (2/3) (-1) 3 16 .intPCM .sine false) =
          (k : ℚ) * sizerBase (Parameters.mk [2] (2/3) (-1) 3 16 .intPCM .sine false)) :=
  ⟨by norm_num [lowestFreq],
    degeneratePeriod_accepted (Parameters.mk [2] (2/3) (-1) 3 16 .intPCM .sine false)
      (by norm_num [lowestFreq]) (by norm_num)
      (by
        intro k hk1 hklt
        rw [show sizerBase (Parameters.mk [2] (2/3) (-1) 3 16 .intPCM .sine false) = 3/2 by
              norm_num [sizerBase, lowestFreq],
            show sizerMax (Parameters.mk [2] (2/3) (-1) 3 16 .intPCM .sine false) = 2 by
              norm_num [sizerMax]] at *
        have hk2 : (k : ℚ) < 4/3 := by linarith
        have hk3 : k < 2 := by
          have h2 : (k : ℚ) < 2 := hk2.trans (by norm_num)
          exact_mod_cast h2
        have hk4 : k = 1 := by omega
        subst hk4
        norm_num)⟩

/-! ## Lemmas: Harmonic Synthesizer -/

/-- Soundness of the Nyquist guard: every factor the harmonic loop visits
passed `freq * factor < rate / 2`, regardless of fuel. -/
theorem harmonicFactorsAux_sound (type : WaveType) (freq rate : ℚ) :
    ∀ fuel factor, ∀ k ∈ harmonicFactorsAux type freq rate fuel factor,
      freq * k < rate / 2 := by
  intro fuel
  induction fuel with
  | zero => intro factor k hk; simp [harmonicFactorsAux] at hk
  | succ fuel ih =>
    intro factor k hk
    rw [harmonicFactorsAux] at hk
    by_cases hg : freq * factor < rate / 2
    · rw [if_pos hg] at hk
      rcases List.mem_cons.mp hk with h | h
      · exact h ▸ hg
      · exact ih _ _ h
    · rw [if_neg hg] at hk
      exact absurd hk (List.not_mem_nil k)

/-- Shapes whose loop steps the factor by 2 (triangle, square): everything
visited is the start factor plus an even natural. -/
theorem harmonicFactorsAux_shape_step2 (type : WaveType) (freq rate : ℚ)
    (hnext : ∀ x : ℚ, harmonicNext type x = x + 2) :
    ∀ fuel factor, ∀ k ∈ harmonicFactorsAux type freq rate fuel factor,
      ∃ j : ℕ, k = factor + 2 * (j : ℚ) := by
  intro fuel
  induction fuel with
  | zero => intro factor k hk; simp [harmonicFactorsAux] at hk
  | succ fuel ih =>
    intro factor k hk
    rw [harmonicFactorsAux] at hk
    by_cases hg : freq * factor < rate / 2
    · rw [if_pos hg] at hk
      rcases List.mem_cons.mp hk with h | h
      · exact ⟨0, by rw [h]; push_cast; ring⟩
      · rw [hnext] at h
        obtain ⟨j, hj⟩ := ih (factor + 2) k h
        exact ⟨j + 1, by rw [hj]; push_cast; ring⟩
    · rw [if_neg hg] at hk
      exact absurd hk (List.not_mem_nil k)

/-- The saw loop steps the factor by 1: everything visited is the start
factor plus a natural. -/
theorem harmonicFactorsAux_shape_saw (freq rate : ℚ) :
    ∀ fuel factor, ∀ k ∈ harmonicFactorsAux .saw freq rate fuel factor,
      ∃ j : ℕ, k = factor + (j : ℚ) := by
  intro fuel
  induction fuel with
  | zero => intro factor k hk; simp [harmonicFactorsAux] at hk
  | succ fuel ih =>
    intro factor k hk
    rw [harmonicFactorsAux] at hk
    by_cases hg : freq * factor < rate / 2
    · rw [if_pos hg] at hk
      rcases List.mem_cons.mp hk with h | h
      · exact ⟨0, by rw [h]; push_cast; ring⟩
      · rw [show harmonicNext .saw factor = factor + 1 from rfl] at h
        obtain ⟨j, hj⟩ := ih (factor + 1) k h
        exact ⟨j + 1, by rw [hj]; push_cast; ring⟩
    · rw [if_neg hg] at hk
      exact absurd hk (List.not_mem_nil k)

/-- From a start factor at least 2, the even loop steps by 2 (the special
`factor == 1.0` reset never fires again): everything visited is the start
factor plus an even natural. -/
theorem harmonicFactorsAux_shape_even (freq rate : ℚ) :
    ∀ fuel factor, 2 ≤ factor →
      ∀ k ∈ harmonicFactorsAux .even freq rate fuel factor,
      ∃ j : ℕ, k = factor + 2 * (j : ℚ) := by
  intro fuel
  induction fuel with
  | zero => intro factor hfac k hk; simp [harmonicFactorsAux] at hk
  | succ fuel ih =>
    intro factor hfac k hk
    rw [harmonicFactorsAux] at hk
    by_cases hg : freq * factor < rate / 2
    · rw [if_pos hg] at hk
      rcases List.mem_cons.mp hk with h | h
      · exact ⟨0, by rw [h]; push_cast; ring⟩
      · have hnext : harmonicNext .even factor = factor + 2 := by
          show (if factor = 1 then 0 else factor) + 2 = factor + 2
          rw [if_neg (show factor ≠ 1 by intro heq; rw [heq] at hfac; norm_num at hfac)]
        rw [hnext] at h
        obtain ⟨j, hj⟩ := ih (factor + 2) (by linarith) k h
        exact ⟨j + 1, by rw [hj]; push_cast; ring⟩
    · rw [if_neg hg] at hk
      exact absurd hk (List.not_mem_nil k)

/-- Completeness of the step-2 loops (triangle, square): with the supplied
fuel, every factor of the shape's series below the Nyquist bound is
visited. -/
theorem harmonicFactorsAux_complete_step2 (type : WaveType) (freq rate : ℚ)
    (hf : 0 < freq) (hnext : ∀ x : ℚ, harmonicNext type x = x + 2) :
    ∀ (j fuel : ℕ), j < fuel → ∀ factor : ℚ,
      freq * (factor + 2 * (j : ℚ)) < rate / 2 →
      (factor + 2 * (j : ℚ)) ∈ harmonicFactorsAux type freq rate fuel factor := by
  intro j
  induction j with
  | zero =>
    intro fuel hfuel factor hk
    match fuel, hfuel with
    | fuel + 1, _ =>
      rw [harmonicFactorsAux, if_pos (by simpa using hk)]
      simp
  | succ j ih =>
    intro fuel hfuel factor hk
    match fuel, hfuel with
    | fuel + 1, hfuel =>
      have hg : freq * factor < rate / 2 := by
        have hj0 : (0 : ℚ) ≤ (j : ℚ) := Nat.cast_nonneg j
        calc freq * factor ≤ freq * (factor + 2 * ((j : ℚ) + 1)) := by nlinarith
        _ < rate / 2 := by push_cast at hk; linarith
      rw [harmonicFactorsAux, if_pos hg]
      refine List.mem_cons_of_mem _ ?_
      have harg : factor + 2 * ((j + 1 : ℕ) : ℚ) = (factor + 2) + 2 * (j : ℚ) := by
        push_cast
        ring
      rw [harg] at hk ⊢
      rw [hnext]
      exact ih fuel (by omega) (factor + 2) hk

/-- Completeness of the saw loop (step 1). -/
theorem harmonicFactorsAux_complete_saw (freq rate : ℚ) (hf : 0 < freq) :
    ∀ (j fuel : ℕ), j < fuel → ∀ factor : ℚ,
      freq * (factor + (j : ℚ)) < rate / 2 →
      (factor + (j : ℚ)) ∈ harmonicFactorsAux .saw freq rate fuel factor := by
  intro j
  induction j with
  | zero =>
    intro fuel hfuel factor hk
    match fuel, hfuel with
    | fuel + 1, _ =>
      rw [harmonicFactorsAux, if_pos (by simpa using hk)]
      simp
  | succ j ih =>
    intro fuel hfuel factor hk
    match fuel, hfuel with
    | fuel + 1, hfuel =>
      have hg : freq * factor < rate / 2 := by
        have hj0 : (0 : ℚ) ≤ (j : ℚ) := Nat.cast_nonneg j
        calc freq * factor ≤ freq * (factor + ((j : ℚ) + 1)) := by nlinarith
        _ < rate / 2 := by push_cast at hk; linarith
      rw [harmonicFactorsAux, if_pos hg]
      refine List.mem_cons_of_mem _ ?_
      have harg : factor + ((j + 1 : ℕ) : ℚ) = (factor + 1) + (j : ℚ) := by
        push_cast
        ring
      rw [harg] at hk ⊢
      rw [show harmonicNext .saw factor = factor + 1 from rfl]
      exact ih fuel (by omega) (factor + 1) hk

/-- Completeness of the even loop from a start factor at least 2. -/
theorem harmonicFactorsAux_complete_even (freq rate : ℚ) (hf : 0 < freq) :
    ∀ (j fuel : ℕ), j < fuel → ∀ factor : ℚ, 2 ≤ factor →
      freq * (factor + 2 * (j : ℚ)) < rate / 2 →
      (factor + 2 * (j : ℚ)) ∈ harmonicFactorsAux .even freq rate fuel factor := by
  intro j
  induction j with
  | zero =>
    intro fuel hfuel factor hfac hk
    match fuel, hfuel with
    | fuel + 1, _ =>
      rw [harmonicFactorsAux, if_pos (by simpa using hk)]
      simp
  | succ j ih =>
    intro fuel hfuel factor hfac hk
    match fuel, hfuel with
    | fuel + 1, hfuel =>
      have hnext : harmonicNext .even factor = factor + 2 := by
        show (if factor = 1 then 0 else factor) + 2 = factor + 2
        rw [if_neg (show factor ≠ 1 by intro heq; rw [heq] at hfac; norm_num at hfac)]
      have hg : freq * factor < rate / 2 := by
        have hj0 : (0 : ℚ) ≤ (j : ℚ) := Nat.cast_nonneg j
        calc freq * factor ≤ freq * (factor + 2 * ((j : ℚ) + 1)) := by nlinarith
        _ < rate / 2 := by push_cast at hk; linarith
      rw [harmonicFactorsAux, if_pos hg]
      refine List.mem_cons_of_mem _ ?_
      have harg : factor + 2 * ((j + 1 : ℕ) : ℚ) = (factor + 2) + 2 * (j : ℚ) := by
        push_cast
        ring
      rw [harg] at hk ⊢
      rw [hnext]
      exact ih fuel (by omega) (factor + 2) (by linarith) hk

/-- **C3** (Nyquist-limited harmonic termination).  For a positive fundamental
`freq`: every multiplier a non-sine harmonic loop synthesizes satisfies
`freq·k < rate/2` (no partial at or above Nyquist); and for each non-sine
shape the loop includes *exactly* the members of that shape's series below
the Nyquist bound — odd `k = 1 + 2j` for triangle and square, every
`k = 1 + j` for saw, and `k = 1` followed by the even `k = 2j` for the
even-harmonics shape.  Concretely, for a square wave at 440 Hz with a 48 kHz
rate the harmonic 53 is included, 55 is excluded, and every included
multiplier is at most 53. -/
theorem harmonicNyquist_spec (freq rate : ℚ) (hf : 0 < freq) :
    (∀ type : WaveType, ∀ k ∈ harmonicFactors type freq rate,
      type ≠ .sine → freq * k < rate / 2) ∧
    (∀ k : ℚ, k ∈ harmonicFactors .triangle freq rate ↔
      (∃ j : ℕ, k = 1 + 2 * (j : ℚ)) ∧ freq * k < rate / 2) ∧
    (∀ k : ℚ, k ∈ harmonicFactors .square freq rate ↔
      (∃ j : ℕ, k = 1 + 2 * (j : ℚ)) ∧ freq * k < rate / 2) ∧
    (∀ k : ℚ, k ∈ harmonicFactors .saw freq rate ↔
      (∃ j : ℕ, k = 1 + (j : ℚ)) ∧ freq * k < rate / 2) ∧
    (∀ k : ℚ, k ∈ harmonicFactors .even freq rate ↔
      (k = 1 ∨ ∃ j : ℕ, 1 ≤ j ∧ k = 2 * (j : ℚ)) ∧ freq * k < rate / 2) ∧
    ((53 : ℚ) ∈ harmonicFactors .square 440 48000 ∧
      (55 : ℚ) ∉ harmonicFactors .square 440 48000 ∧
      ∀ k ∈ harmonicFactors .square 440 48000, k ≤ 53) := by
  have hfval : harmonicFuel freq rate = (⌊rate / (2 * freq)⌋).toNat + 2 := rfl
  have hstep2 : ∀ type : WaveType, type ≠ .sine →
      (∀ x : ℚ, harmonicNext type x = x + 2) →
      ∀ k : ℚ, k ∈ harmonicFactors type freq rate ↔
        (∃ j : ℕ, k = 1 + 2 * (j : ℚ)) ∧ freq * k < rate / 2 := by
    intro type hns hnext k
    have hlist : harmonicFactors type freq rate =
        harmonicFactorsAux type freq rate (harmonicFuel freq rate) 1 := by
      cases type with
      | sine => exact absurd rfl hns
      | triangle => rfl
      | square => rfl
      | saw => rfl
      | even => rfl
    rw [hlist]
    constructor
    · intro hk
      exact ⟨harmonicFactorsAux_shape_step2 type freq rate hnext _ _ k hk,
        harmonicFactorsAux_sound type freq rate _ _ k hk⟩
    · rintro ⟨⟨j, rfl⟩, hbound⟩
      have hjq : (j : ℚ) < rate / (2 * freq) := by
        have hj0 : (0 : ℚ) ≤ (j : ℚ) := Nat.cast_nonneg j
        rw [lt_div_iff₀ (by positivity)]
        nlinarith [mul_nonneg hj0 hf.le]
      have h3 : (j : ℤ) ≤ ⌊rate / (2 * freq)⌋ := Int.le_floor.mpr (by exact_mod_cast hjq.le)
      exact harmonicFactorsAux_complete_step2 type freq rate hf hnext j _ (by omega) 1 hbound
  have hsawiff : ∀ k : ℚ, k ∈ harmonicFactors .saw freq rate ↔
      (∃ j : ℕ, k = 1 + (j : ℚ)) ∧ freq * k < rate / 2 := by
    intro k
    rw [show harmonicFactors .saw freq rate =
        harmonicFactorsAux .saw freq rate (harmonicFuel freq rate) 1 from rfl]
    constructor
    · intro hk
      exact ⟨harmonicFactorsAux_shape_saw freq rate _ _ k hk,
        harmonicFactorsAux_sound .saw freq rate _ _ k hk⟩
    · rintro ⟨⟨j, rfl⟩, hbound⟩
      have hjq : (j : ℚ) < rate / (2 * freq) := by
        have hj0 : (0 : ℚ) ≤ (j : ℚ) := Nat.cast_nonneg j
        rw [lt_div_iff₀ (by positivity)]
        nlinarith [mul_nonneg hj0 hf.le]
      have h3 : (j : ℤ) ≤ ⌊rate / (2 * freq)⌋ := Int.le_floor.mpr (by exact_mod_cast hjq.le)
      exact harmonicFactorsAux_complete_saw freq rate hf j _ (by omega) 1 hbound
  have heveniff : ∀ k : ℚ, k ∈ harmonicFactors .even freq rate ↔
      (k = 1 ∨ ∃ j : ℕ, 1 ≤ j ∧ k = 2 * (j : ℚ)) ∧ freq * k < rate / 2 := by
    obtain ⟨f, hfeq⟩ : ∃ f, harmonicFuel freq rate = f + 1 :=
      ⟨(⌊rate / (2 * freq)⌋).toNat + 1, by omega⟩
    have hnext1 : harmonicNext .even 1 = 2 := by
      show (if (1 : ℚ) = 1 then 0 else 1) + 2 = 2
      rw [if_pos rfl]
      norm_num
    have hlist : harmonicFactors .even freq rate =
        harmonicFactorsAux .even freq rate (f + 1) 1 := by
      rw [show harmonicFactors .even freq rate =
          harmonicFactorsAux .even freq rate (harmonicFuel freq rate) 1 from rfl, hfeq]
    intro k
    rw [hlist, harmonicFactorsAux]
    constructor
    · intro hk
      by_cases hg : freq * 1 < rate / 2
      · rw [if_pos hg] at hk
        rcases List.mem_cons.mp hk with rfl | htail
        · exact ⟨Or.inl rfl, hg⟩
        · rw [hnext1] at htail
          obtain ⟨j, hj⟩ := harmonicFactorsAux_shape_even freq rate f 2 (by norm_num) k htail
          have hbound := harmonicFactorsAux_sound .even freq rate f 2 k htail
          refine ⟨Or.inr ⟨j + 1, by omega, ?_⟩, hbound⟩
          rw [hj]
          push_cast
          ring
      · rw [if_neg hg] at hk
        exact absurd hk (List.not_mem_nil k)
    · rintro ⟨hform, hbound⟩
      rcases hform with rfl | ⟨j, hj1, rfl⟩
      · rw [if_pos hbound]
        exact List.mem_cons_self _ _
      · have h2j : (1 : ℚ) ≤ (j : ℚ) := by exact_mod_cast hj1
        have hg : freq * 1 < rate / 2 := by nlinarith
        rw [if_pos hg]
        refine List.mem_cons_of_mem _ ?_
        rw [hnext1]
        have hsub : ((j - 1 : ℕ) : ℚ) = (j : ℚ) - 1 := by
          rw [Nat.cast_sub hj1]
          norm_num
        have harg : 2 * ((j : ℕ) : ℚ) = 2 + 2 * ((j - 1 : ℕ) : ℚ) := by
          rw [hsub]
          ring
        rw [harg]
        have hjq : (j : ℚ) < rate / (2 * freq) := by
          rw [lt_div_iff₀ (by positivity)]
          nlinarith
        have h3 : (j : ℤ) ≤ ⌊rate / (2 * freq)⌋ := Int.le_floor.mpr (by exact_mod_cast hjq.le)
        refine harmonicFactorsAux_complete_even freq rate hf (j - 1) f (by omega) 2 (by norm_num) ?_
        rw [← harg]
        exact hbound
  refine ⟨?_, hstep2 .triangle (by decide) (fun x => rfl),
    hstep2 .square (by decide) (fun x => rfl), hsawiff, heveniff, ?_, ?_, ?_⟩
  · intro type k hk hts
    cases type with
    | sine => exact absurd rfl hts
    | triangle => exact harmonicFactorsAux_sound _ _ _ _ _ _ hk
    | square => exact harmonicFactorsAux_sound _ _ _ _ _ _ hk
    | saw => exact harmonicFactorsAux_sound _ _ _ _ _ _ hk
    | even => exact harmonicFactorsAux_sound _ _ _ _ _ _ hk
  · rw [show (53 : ℚ) = 1 + 2 * ((26 : ℕ) : ℚ) by norm_num,
      show harmonicFactors .square 440 48000 =
        harmonicFactorsAux .square 440 48000 (harmonicFuel 440 48000) 1 from rfl]
    apply harmonicFactorsAux_complete_step2 .square 440 48000 (by norm_num)
      (fun x => rfl) 26 _ ?_ 1 (by push_cast; norm_num)
    have h54 : (26 : ℤ) ≤ ⌊(48000 : ℚ) / (2 * 440)⌋ := by
      rw [show ⌊(48000 : ℚ) / (2 * 440)⌋ = 54 by norm_num]
      norm_num
    rw [show harmonicFuel 440 48000 = (⌊(48000 : ℚ) / (2 * 440)⌋).toNat + 2 from rfl]
    omega
  · intro h55
    have := harmonicFactorsAux_sound .square 440 48000 _ _ _
      (by simpa [harmonicFactors] using h55)
    norm_num at this
  · intro k hk
    obtain ⟨j, hj⟩ := harmonicFactorsAux_shape_step2 .square 440 48000 (fun x => rfl) _ _ k
      (by simpa [harmonicFactors] using hk)
    have hb := harmonicFactorsAux_sound .square 440 48000 _ _ k
      (by simpa [harmonicFactors] using hk)
    rw [hj] at hb ⊢
    have hj26 : (j : ℚ) ≤ 26 := by
      by_contra hgt
      push_neg at hgt
      have : (27 : ℚ) ≤ (j : ℚ) := by
        have : (26 : ℕ) < j := by exact_mod_cast hgt
        exact_mod_cast this
      nlinarith
    linarith

/-- Witness for `harmonicNyquist_spec`, instantiated at 440 Hz / 48 kHz. -/
theorem harmonicNyquist_spec_witness :
    (0 : ℚ) < 440 ∧
    ((53 : ℚ) ∈ harmonicFactors .square 440 48000 ∧
      (55 : ℚ) ∉ harmonicFactors .square 440 48000 ∧
      ∀ k ∈ harmonicFactors .square 440 48000, k ≤ 53) :=
  ⟨by norm_num, (harmonicNyquist_spec 440 48000 (by norm_num)).2.2.2.2.2⟩

/-- **C1** (multi-tone superposition is broken for sine).  Evaluating the
source's accumulation loop (lines 740-742) on two sine tones of 1 Hz and 2 Hz
at rate 8 over a 2-sample buffer, with any interpretation of `sin` (here the
identity on the rational phase argument): the resulting chunk equals the
*last* tone's wave alone, not the pointwise sum of the two tones' waves,
because the sine branch of `addWave` assigns `buf[i] = ...` (line 777) where
every other branch accumulates `buf[i] += ...`. -/
theorem sine_addWave_overwrites :
    addWaves id .sine 8 [1, 2] (List.replicate 2 0) = toneChunk id .sine 8 2 2 ∧
    addWaves id .sine 8 [1, 2] (List.replicate 2 0) ≠
      pointwiseAdd (toneChunk id .sine 8 2 1) (toneChunk id .sine 8 2 2) := by
  constructor
  · simp [addWaves, addWave, toneChunk, sineArg, List.replicate, List.mapIdx_cons,
      Function.comp]
  · simp [addWaves, addWave, toneChunk, pointwiseAdd, sineArg, List.replicate,
      List.mapIdx_cons, Function.comp, PIq]
    norm_num

/-! ## Lemmas: Peak Normalizer -/

/-- Full characterisation of the single-pass peak scan: starting from a state
`(p, n)` with `n ≤ p`, the final positive peak only grows, the final negative
peak only shrinks, each final peak is the initial one or an element of the
list, and every element lies between the two final peaks (the `else if` never
loses an update because `n ≤ p` is invariant). -/
theorem peakFold_spec (l : List ℚ) : ∀ p n : ℚ, n ≤ p →
    (peakFold l (p, n)).2 ≤ (peakFold l (p, n)).1 ∧
    p ≤ (peakFold l (p, n)).1 ∧ (peakFold l (p, n)).2 ≤ n ∧
    ((peakFold l (p, n)).1 = p ∨ (peakFold l (p, n)).1 ∈ l) ∧
    ((peakFold l (p, n)).2 = n ∨ (peakFold l (p, n)).2 ∈ l) ∧
    ∀ x ∈ l, (peakFold l (p, n)).2 ≤ x ∧ x ≤ (peakFold l (p, n)).1 := by
  induction l with
  | nil =>
    intro p n h
    simp only [peakFold, List.foldl_nil]
    exact ⟨h, le_refl _, le_refl _, by simp, by simp,
      fun x hx => absurd hx (List.not_mem_nil x)⟩
  | cons x l ih =>
    intro p n h
    by_cases h1 : x > p
    · have e : peakFold (x :: l) (p, n) = peakFold l (x, n) := by
        simp [peakFold, h1]
      obtain ⟨i1, i2, i3, i4, i5, i6⟩ := ih x n (by linarith)
      rw [e]
      refine ⟨i1, by linarith, i3, ?_, ?_, ?_⟩
      · rcases i4 with hh | hh
        · exact Or.inr (by rw [hh]; exact List.mem_cons_self x l)
        · exact Or.inr (List.mem_cons_of_mem _ hh)
      · rcases i5 with hh | hh
        · exact Or.inl hh
        · exact Or.inr (List.mem_cons_of_mem _ hh)
      · intro y hy
        rcases List.mem_cons.mp hy with rfl | hy'
        · exact ⟨by linarith, i2⟩
        · exact i6 y hy'
    · by_cases h2 : x < n
      · have e : peakFold (x :: l) (p, n) = peakFold l (p, x) := by
          simp [peakFold, h1, h2]
        obtain ⟨i1, i2, i3, i4, i5, i6⟩ := ih p x (by linarith)
        rw [e]
        refine ⟨i1, i2, by linarith, ?_, ?_, ?_⟩
        · rcases i4 with hh | hh
          · exact Or.inl hh
          · exact Or.inr (List.mem_cons_of_mem _ hh)
        · rcases i5 with hh | hh
          · exact Or.inr (by rw [hh]; exact List.mem_cons_self x l)
          · exact Or.inr (List.mem_cons_of_mem _ hh)
        · intro y hy
          rcases List.mem_cons.mp hy with rfl | hy'
          · exact ⟨i3, by linarith⟩
          · exact i6 y hy'
      · have e : peakFold (x :: l) (p, n) = peakFold l (p, n) := by
          simp [peakFold, h1, h2]
        obtain ⟨i1, i2, i3, i4, i5, i6⟩ := ih p n h
        rw [e]
        refine ⟨i1, i2, i3, ?_, ?_, ?_⟩
        · rcases i4 with hh | hh
          · exact Or.inl hh
          · exact Or.inr (List.mem_cons_of_mem _ hh)
        · rcases i5 with hh | hh
          · exact Or.inl hh
          · exact Or.inr (List.mem_cons_of_mem _ hh)
        · intro y hy
          rcases List.mem_cons.mp hy with rfl | hy'
          · exact ⟨by linarith, by linarith⟩
          · exact i6 y hy'

/-- The scanned absolute peak `absPeak = posPeak > -negPeak ? posPeak :
-negPeak` bounds every element in absolute value, is attained by an element,
and is positive for a non-silent chunk. -/
theorem absPeak_spec (b : ℚ) (rest : List ℚ) :
    (∀ x ∈ b :: rest, |x| ≤
      (if (peakFold rest (b, b)).1 > -(peakFold rest (b, b)).2
        then (peakFold rest (b, b)).1 else -(peakFold rest (b, b)).2)) ∧
    (∃ y ∈ b :: rest, |y| =
      (if (peakFold rest (b, b)).1 > -(peakFold rest (b, b)).2
        then (peakFold rest (b, b)).1 else -(peakFold rest (b, b)).2)) := by
  obtain ⟨i1, i2, i3, i4, i5, i6⟩ := peakFold_spec rest b b (le_refl b)
  have hmem1 : (peakFold rest (b, b)).1 ∈ b :: rest := by
    rcases i4 with hh | hh
    · rw [hh]; exact List.mem_cons_self b rest
    · exact List.mem_cons_of_mem _ hh
  have hmem2 : (peakFold rest (b, b)).2 ∈ b :: rest := by
    rcases i5 with hh | hh
    · rw [hh]; exact List.mem_cons_self b rest
    · exact List.mem_cons_of_mem _ hh
  have hbounds : ∀ x ∈ b :: rest,
      (peakFold rest (b, b)).2 ≤ x ∧ x ≤ (peakFold rest (b, b)).1 := by
    intro x hx
    rcases List.mem_cons.mp hx with rfl | hx'
    · exact ⟨i3, i2⟩
    · exact i6 x hx'
  constructor
  · intro x hx
    obtain ⟨hl, hr⟩ := hbounds x hx
    split
    · rename_i hcase
      rw [abs_le]
      constructor
      · linarith
      · exact hr
    · rename_i hcase
      rw [abs_le]
      constructor
      · linarith
      · push_neg at hcase
        linarith
  · split
    · rename_i hcase
      refine ⟨(peakFold rest (b, b)).1, hmem1, ?_⟩
      have hpos : 0 ≤ (peakFold rest (b, b)).1 := by
        by_contra hneg
        push_neg at hneg
        have : -(peakFold rest (b, b)).2 ≥ -(peakFold rest (b, b)).1 := by linarith
        linarith
      exact abs_of_nonneg hpos
    · rename_i hcase
      push_neg at hcase
      refine ⟨(peakFold rest (b, b)).2, hmem2, ?_⟩
      have hneg : (peakFold rest (b, b)).2 ≤ 0 := by linarith
      rw [abs_of_nonpos hneg]

/-- Peak normalization with a positive gain: every sample of the normalized
chunk is bounded by the gain in absolute value, and the bound is attained
(the absolute peak of the output equals the gain exactly). -/
theorem normalizeChunk_peak (buf : List ℚ) (g : ℚ) (hg : 0 < g)
    (hne : ∃ x ∈ buf, x ≠ 0) :
    (∀ y ∈ normalizeChunk g buf, |y| ≤ g) ∧
    ∃ y ∈ normalizeChunk g buf, |y| = g := by
  match buf, hne with
  | b :: rest, hne =>
    obtain ⟨habs, y₀, hy₀m, hy₀⟩ := absPeak_spec b rest
    set A : ℚ := (if (peakFold rest (b, b)).1 > -(peakFold rest (b, b)).2
      then (peakFold rest (b, b)).1 else -(peakFold rest (b, b)).2) with hA
    have hApos : 0 < A := by
      obtain ⟨x, hx, hx0⟩ := hne
      have := habs x hx
      have : 0 < |x| := abs_pos.mpr hx0
      linarith [habs x hx]
    have hnorm : normalizeChunk g (b :: rest) =
        if A / g ≠ 1 then (b :: rest).map (fun x => x / (A / g)) else b :: rest := by
      rw [normalizeChunk]
    by_cases hd : A / g ≠ 1
    · rw [hnorm, if_pos hd]
      have hdpos : 0 < A / g := div_pos hApos hg
      constructor
      · intro y hy
        obtain ⟨x, hx, rfl⟩ := List.mem_map.mp hy
        rw [abs_div, abs_of_pos hdpos, div_le_iff₀ hdpos]
        calc |x| ≤ A := habs x hx
        _ = g * (A / g) := by field_simp
      · refine ⟨y₀ / (A / g), List.mem_map.mpr ⟨y₀, hy₀m, rfl⟩, ?_⟩
        rw [abs_div, abs_of_pos hdpos, hy₀]
        field_simp
    · push_neg at hd
      have hAg : A = g := by
        field_simp at hd
        linarith
      rw [hnorm, if_neg (by push_neg; exact hd)]
      exact ⟨fun y hy => hAg ▸ habs y hy, y₀, hy₀m, hAg ▸ hy₀⟩

/-- Peak normalization with gain 0 silences the whole (nonempty) chunk: the
C code divides the peak by `0.0` (yielding `+inf` for a non-silent chunk) and
then divides every sample by it, producing zeros; in the `ℚ` model the
divisor is `0` and `x / 0 = 0` likewise. -/
theorem normalizeChunk_zero (buf : List ℚ) (hbuf : buf ≠ []) :
    normalizeChunk 0 buf = List.replicate buf.length 0 := by
  match buf, hbuf with
  | b :: rest, _ =>
    rw [normalizeChunk]
    simp [List.replicate_succ]

/-- **C4** (Peak Normalizer).  For a non-silent chunk: if the target level is
above the −150 dB floor and the (abstractly modelled) `pow(10, L/20)` gain is
positive, the normalized chunk's absolute peak equals that gain exactly —
every sample is bounded by it and the bound is attained; if the level is at
or below the floor, `decibelsToGain` returns 0 and every sample of the chunk
becomes 0. -/
theorem peakNormalize_spec (buf : List ℚ) (tenPow : ℚ → ℚ) (L : ℚ)
    (hne : ∃ x ∈ buf, x ≠ 0) :
    (-150 < L → 0 < tenPow (L * 0.05) →
      (∀ y ∈ normalizeChunk (decibelsToGainM tenPow L) buf,
        |y| ≤ tenPow (L * 0.05)) ∧
      ∃ y ∈ normalizeChunk (decibelsToGainM tenPow L) buf,
        |y| = tenPow (L * 0.05)) ∧
    (L ≤ -150 →
      normalizeChunk (decibelsToGainM tenPow L) buf = List.replicate buf.length 0) := by
  constructor
  · intro hL hgain
    have hgeq : decibelsToGainM tenPow L = tenPow (L * 0.05) := by
      rw [decibelsToGainM, if_pos hL]
    rw [hgeq]
    exact normalizeChunk_peak buf _ hgain hne
  · intro hL
    have hgeq : decibelsToGainM tenPow L = 0 := by
      rw [decibelsToGainM, if_neg (by linarith)]
    rw [hgeq]
    apply normalizeChunk_zero
    obtain ⟨x, hx, -⟩ := hne
    exact List.ne_nil_of_mem hx

/-- Witness for `peakNormalize_spec`: the chunk `[1/2, -1/4]` with target
level −6 dBFS under a gain model sending `−6 · 0.05` to `1/2`; the normalized
peak is exactly `1/2`, and at level −151 the chunk is zeroed. -/
theorem peakNormalize_spec_witness :
    ((1 : ℚ)/2 ∈ ([1/2, -1/4] : List ℚ) ∧ (1 : ℚ)/2 ≠ 0) ∧
    ((∀ y ∈ normalizeChunk (decibelsToGainM (fun _ => 1/2) (-6)) [1/2, -1/4],
        |y| ≤ (1 : ℚ)/2) ∧
      ∃ y ∈ normalizeChunk (decibelsToGainM (fun _ => 1/2) (-6)) [1/2, -1/4],
        |y| = (1 : ℚ)/2) ∧
    normalizeChunk (decibelsToGainM (fun _ => (1 : ℚ)/2) (-151)) [1/2, -1/4] =
      List.replicate 2 0 :=
  ⟨⟨by norm_num, by norm_num⟩,
    (peakNormalize_spec [1/2, -1/4] (fun _ => 1/2) (-6)
      ⟨1/2, by norm_num, by norm_num⟩).1 (by norm_num) (by norm_num),
    (peakNormalize_spec [1/2, -1/4] (fun _ => 1/2) (-151)
      ⟨1/2, by norm_num, by norm_num⟩).2 (by norm_num)⟩

/-! ## Lemmas: Sample Encoder -/

/-- Rounding `q + 1/2` down and rounding `q - 1/2` up agree except when the
fractional part of `q` is exactly `1/2`. -/
theorem floor_add_half_eq_ceil_sub_half (q : ℚ) (hq : q - ⌊q⌋ ≠ 1 / 2) :
    ⌊q + 1 / 2⌋ = ⌈q - 1 / 2⌉ := by
  have h1 : (⌊q⌋ : ℚ) ≤ q := Int.floor_le q
  have h2 : q < ⌊q⌋ + 1 := Int.lt_floor_add_one q
  by_cases hlt : q - ⌊q⌋ < 1 / 2
  · have hf : ⌊q + 1 / 2⌋ = ⌊q⌋ := by
      rw [Int.floor_eq_iff]
      constructor
      · linarith
      · push_cast
        linarith
    have hc : ⌈q - 1 / 2⌉ = ⌊q⌋ := by
      rw [Int.ceil_eq_iff]
      constructor
      · push_cast
        linarith
      · linarith
    rw [hf, hc]
  · have hgt : 1 / 2 < q - ⌊q⌋ := lt_of_le_of_ne (not_lt.mp hlt) (Ne.symm hq)
    have hf : ⌊q + 1 / 2⌋ = ⌊q⌋ + 1 := by
      rw [Int.floor_eq_iff]
      constructor
      · push_cast
        linarith
      · push_cast
        linarith
    have hc : ⌈q - 1 / 2⌉ = ⌊q⌋ + 1 := by
      rw [Int.ceil_eq_iff]
      constructor
      · push_cast
        linarith
      · push_cast
        linarith
    rw [hf, hc]

/-- `lround` of a value within symmetric integer bounds stays within them. -/
theorem lroundQ_bounds (q : ℚ) (M : ℤ) (h1 : -(M : ℚ) ≤ q) (h2 : q ≤ (M : ℚ)) :
    -M ≤ lroundQ q ∧ lroundQ q ≤ M := by
  have hM : (0 : ℚ) ≤ (M : ℚ) := by linarith
  rw [lroundQ]
  split
  · rename_i h0
    constructor
    · have hnn : (0 : ℤ) ≤ ⌊q + 1 / 2⌋ := Int.floor_nonneg.mpr (by linarith)
      have : (0 : ℤ) ≤ M := by exact_mod_cast hM
      omega
    · have hmono : ⌊q + 1 / 2⌋ ≤ ⌊(M : ℚ) + 1 / 2⌋ := Int.floor_mono (by linarith)
      have he : ⌊(M : ℚ) + 1 / 2⌋ = M := by
        rw [Int.floor_eq_iff]
        constructor
        · linarith
        · push_cast
          linarith
      omega
  · rename_i h0
    push_neg at h0
    constructor
    · have hmono : ⌈-(M : ℚ) - 1 / 2⌉ ≤ ⌈q - 1 / 2⌉ := Int.ceil_mono (by linarith)
      have he : ⌈-(M : ℚ) - 1 / 2⌉ = -M := by
        rw [Int.ceil_eq_iff]
        constructor
        · push_cast
          linarith
        · push_cast
          linarith
      omega
    · have hmono : ⌈q - 1 / 2⌉ ≤ ⌈(0 : ℚ) - 1 / 2⌉ := Int.ceil_mono (by linarith)
      have he : ⌈(0 : ℚ) - 1 / 2⌉ = 0 := by
        rw [Int.ceil_eq_iff]
        constructor
        · push_cast
          linarith
        · push_cast
          linarith
      have : (0 : ℤ) ≤ M := by exact_mod_cast hM
      omega

/-- A two's-complement narrowing is the identity on in-range values. -/
theorem toIntWrap_eq_self (w : ℕ) (x : ℤ) (hw : 1 ≤ w)
    (h1 : -(2 ^ (w - 1)) ≤ x) (h2 : x < 2 ^ (w - 1)) : toIntWrap w x = x := by
  rw [toIntWrap]
  have hp : (2 : ℤ) ^ w = 2 ^ (w - 1) * 2 := by
    rw [← pow_succ]
    congr 1
    omega
  have h0 : 0 ≤ x + 2 ^ (w - 1) := by linarith
  have hlt : x + 2 ^ (w - 1) < 2 ^ w := by
    rw [hp]
    linarith
  rw [Int.emod_eq_of_lt h0 hlt]
  ring

/-- The three bytes the 24-bit branch stores (`(int8_t)(val >> 8·j)` of the
two's-complement 32-bit `val`) are exactly the low three bytes of the rounded
value, least-significant byte first. -/
theorem encodeInt24_eq_low3 (v : ℚ) :
    encodeInt24 v =
      (intBytesLE 3 (lroundQ (v * maxIntOf 24))).map (fun b : ℕ => (b : ℤ)) := by
  rw [encodeInt24, intBytesLE]
  rw [show List.range 3 = [0, 1, 2] from rfl]
  simp only [List.map_map, List.map_cons, List.map_nil, Function.comp,
    List.cons.injEq, and_true]
  refine ⟨?_, ?_, ?_⟩ <;>
    rw [Int.fdiv_eq_ediv _ (by positivity), toIntWrap] <;>
    omega

/-- **C5 counterexample**: at sample `v = -1/254` and 8-bit depth, the encoder
stores `lround(v·127 + 128) = lround(127.5) = 128`, whereas the claimed
"round v·127 half away from zero, then offset" recipe gives
`lround(-0.5) + 128 = -1 + 128 = 127`: rounding after the `+128` offset
differs at exact negative half-integers. -/
theorem encode8_offset_rounding_counterexample :
    encodeInt8 (-1 / 254) = 128 ∧
    (lroundQ ((-1 / 254) * maxIntOf 8) + 128) % 256 = 127 ∧
    encodeInt8 (-1 / 254) ≠ (lroundQ ((-1 / 254) * maxIntOf 8) + 128) % 256 := by
  have e1 : encodeInt8 (-1 / 254) = 128 := by
    rw [encodeInt8, lroundQ]
    rw [show (-1 / 254 : ℚ) * maxIntOf 8 + 128 = 255 / 2 by
      rw [maxIntOf]; norm_num]
    rw [if_pos (by norm_num)]
    norm_num
  have e2 : (lroundQ ((-1 / 254) * maxIntOf 8) + 128) % 256 = 127 := by
    rw [lroundQ]
    rw [show (-1 / 254 : ℚ) * maxIntOf 8 = -(1 / 2) by rw [maxIntOf]; norm_num]
    rw [if_neg (by norm_num)]
    rw [show (-(1 / 2) : ℚ) - 1 / 2 = ((-1 : ℤ) : ℚ) by norm_num, Int.ceil_intCast]
    norm_num
  exact ⟨e1, e2, by rw [e1, e2]; norm_num⟩

/-- **C5 (amended)** (Sample Encoder, integer PCM).  For every sample
`v ∈ [-1, 1]`:
* 8-bit stores `lround(v·127 + 128)` reduced mod 256 — i.e. the rounding is
  applied *after* the +128 offset; whenever `v·127` is nonnegative or not an
  exact half-integer this equals the claimed `lround(v·127) + 128`, and
  `v = 0` gives byte 128, `v = 1` gives byte 255;
* 16-bit and 32-bit store `lround(v·maxInt)` as in-range two's-complement
  (no wrap occurs for `|v| ≤ 1`), e.g. `v = 1/2` at 16-bit gives 16384;
* 24-bit stores the low 3 bytes of the rounded value, LSB first. -/
theorem sampleEncoder_spec (v : ℚ) (hv1 : -1 ≤ v) (hv2 : v ≤ 1) :
    encodeInt8 v = lroundQ (v * maxIntOf 8 + 128) % 256 ∧
    (0 ≤ v * maxIntOf 8 ∨ v * maxIntOf 8 - ⌊v * maxIntOf 8⌋ ≠ 1 / 2 →
      encodeInt8 v = lroundQ (v * maxIntOf 8) + 128) ∧
    encodeInt16 v = lroundQ (v * maxIntOf 16) ∧
    encodeInt32 v = lroundQ (v * maxIntOf 32) ∧
    encodeInt24 v =
      (intBytesLE 3 (lroundQ (v * maxIntOf 24))).map (fun b : ℕ => (b : ℤ)) ∧
    encodeInt8 0 = 128 ∧ encodeInt8 1 = 255 ∧ encodeInt16 (1 / 2) = 16384 := by
  have h8 : (maxIntOf 8 : ℚ) = 127 := by rw [maxIntOf]; norm_num
  refine ⟨rfl, ?_, ?_, ?_, encodeInt24_eq_low3 v, ?_, ?_, ?_⟩
  · -- 8-bit: rounding-after-offset agrees with offset-after-rounding
    -- away from negative half-integers
    intro hcond
    set x : ℚ := v * maxIntOf 8 with hx
    have hxlo : (-127 : ℚ) ≤ x := by rw [hx, h8]; nlinarith
    have hxhi : x ≤ 127 := by rw [hx, h8]; nlinarith
    have hshift : lroundQ (x + 128) = ⌊x + 1 / 2⌋ + 128 := by
      rw [lroundQ, if_pos (by linarith)]
      rw [show x + 128 + 1 / 2 = x + 1 / 2 + (128 : ℤ) by push_cast; ring]
      rw [Int.floor_add_int]
    have hagree : ⌊x + 1 / 2⌋ = lroundQ x := by
      by_cases h0 : 0 ≤ x
      · rw [lroundQ, if_pos h0]
      · push_neg at h0
        have hfrac : x - ⌊x⌋ ≠ 1 / 2 := by
          rcases hcond with hc | hc
          · exact absurd hc (not_le.mpr h0)
          · exact hc
        rw [lroundQ, if_neg (not_le.mpr h0)]
        exact floor_add_half_eq_ceil_sub_half x hfrac
    have hbound_lo : (0 : ℤ) ≤ ⌊x + 1 / 2⌋ + 128 := by
      have : ⌊(-127 : ℚ) + 1 / 2⌋ ≤ ⌊x + 1 / 2⌋ := Int.floor_mono (by linarith)
      have he : ⌊(-127 : ℚ) + 1 / 2⌋ = -127 := by
        rw [Int.floor_eq_iff]
        constructor
        · push_cast
          linarith
        · push_cast
          linarith
      omega
    have hbound_hi : ⌊x + 1 / 2⌋ + 128 < 256 := by
      have : ⌊x + 1 / 2⌋ ≤ ⌊(127 : ℚ) + 1 / 2⌋ := Int.floor_mono (by linarith)
      have he : ⌊(127 : ℚ) + 1 / 2⌋ = 127 := by
        rw [Int.floor_eq_iff]
        constructor
        · push_cast
          linarith
        · push_cast
          linarith
      omega
    rw [encodeInt8, ← hx, hshift, Int.emod_eq_of_lt hbound_lo hbound_hi, hagree]
  · -- 16-bit: in range, so the two's-complement cast is the identity
    have h16 : (maxIntOf 16 : ℚ) = 32767 := by rw [maxIntOf]; norm_num
    obtain ⟨hl, hh⟩ := lroundQ_bounds (v * maxIntOf 16) 32767
      (by push_cast; rw [h16]; nlinarith) (by push_cast; rw [h16]; nlinarith)
    rw [encodeInt16]
    exact toIntWrap_eq_self 16 _ (by norm_num) (by norm_num; omega) (by norm_num; omega)
  · -- 32-bit: in range likewise
    have h32 : (maxIntOf 32 : ℚ) = 2147483647 := by rw [maxIntOf]; norm_num
    obtain ⟨hl, hh⟩ := lroundQ_bounds (v * maxIntOf 32) 2147483647
      (by push_cast; rw [h32]; nlinarith) (by push_cast; rw [h32]; nlinarith)
    rw [encodeInt32]
    exact toIntWrap_eq_self 32 _ (by norm_num) (by norm_num; omega) (by norm_num; omega)
  · rw [encodeInt8, lroundQ, show (0 : ℚ) * maxIntOf 8 + 128 = 128 by norm_num,
      if_pos (by norm_num)]
    norm_num
  · rw [encodeInt8, lroundQ, show (1 : ℚ) * maxIntOf 8 + 128 = 255 by
      rw [maxIntOf]; norm_num, if_pos (by norm_num)]
    norm_num
  · rw [encodeInt16, lroundQ, show (1 / 2 : ℚ) * maxIntOf 16 = 32767 / 2 by
      rw [maxIntOf]; norm_num, if_pos (by norm_num)]
    rw [show (32767 / 2 : ℚ) + 1 / 2 = ((16384 : ℤ) : ℚ) by norm_num,
      Int.floor_intCast]
    rw [toIntWrap]
    norm_num

/-- Witness for `sampleEncoder_spec` at `v = 1/2` (where `v·127 = 63.5 ≥ 0`,
so the 8-bit conjunct's side condition holds by its first disjunct). -/
theorem sampleEncoder_spec_witness :
    ((-1 : ℚ) ≤ 1 / 2 ∧ (1 / 2 : ℚ) ≤ 1 ∧ (0 : ℚ) ≤ (1 / 2 : ℚ) * maxIntOf 8) ∧
    encodeInt8 (1 / 2) = lroundQ ((1 / 2 : ℚ) * maxIntOf 8) + 128 ∧
    encodeInt16 (1 / 2) = lroundQ ((1 / 2 : ℚ) * maxIntOf 16) ∧
    encodeInt32 (1 / 2) = lroundQ ((1 / 2 : ℚ) * maxIntOf 32) ∧
    encodeInt16 (1 / 2) = 16384 :=
  ⟨⟨by norm_num, by norm_num, by rw [maxIntOf]; norm_num⟩,
    (sampleEncoder_spec (1 / 2) (by norm_num) (by norm_num)).2.1
      (Or.inl (by rw [maxIntOf]; norm_num)),
    (sampleEncoder_spec (1 / 2) (by norm_num) (by norm_num)).2.2.1,
    (sampleEncoder_spec (1 / 2) (by norm_num) (by norm_num)).2.2.2.1,
    (sampleEncoder_spec (1 / 2) (by norm_num) (by norm_num)).2.2.2.2.2.2.2⟩

/-- **C10** (no saturation in the integer encoder).  At the out-of-range
sample `v = 3/2`: the 16-bit rounded value is 49151, which exceeds
`maxInt = 32767`; the narrowing cast stores `49151 - 2^16 = -16385`
(reduction mod `2^16`), not the clamped 32767.  Likewise 8-bit: the rounded
`1.5·127 + 128 = 318.5` rounds to 319 and is stored as `319 mod 256 = 63`,
not the clamped 255. -/
theorem encoder_wraps_no_saturation :
    lroundQ ((3 / 2 : ℚ) * maxIntOf 16) = 49151 ∧
    maxIntOf 16 < 49151 ∧
    encodeInt16 (3 / 2) = 49151 - 2 ^ 16 ∧
    encodeInt16 (3 / 2) ≠ maxIntOf 16 ∧
    encodeInt8 (3 / 2) = 63 ∧
    encodeInt8 (3 / 2) ≠ 255 := by
  have hr : lroundQ ((3 / 2 : ℚ) * maxIntOf 16) = 49151 := by
    rw [lroundQ, show (3 / 2 : ℚ) * maxIntOf 16 = 98301 / 2 by
      rw [maxIntOf]; norm_num, if_pos (by norm_num)]
    rw [show (98301 / 2 : ℚ) + 1 / 2 = ((49151 : ℤ) : ℚ) by norm_num,
      Int.floor_intCast]
  have h16 : encodeInt16 (3 / 2) = 49151 - 2 ^ 16 := by
    rw [encodeInt16, hr, toIntWrap]
    norm_num
  have h8 : encodeInt8 (3 / 2) = 63 := by
    rw [encodeInt8, lroundQ, show (3 / 2 : ℚ) * maxIntOf 8 + 128 = 637 / 2 by
      rw [maxIntOf]; norm_num, if_pos (by norm_num)]
    rw [show (637 / 2 : ℚ) + 1 / 2 = ((319 : ℤ) : ℚ) by norm_num,
      Int.floor_intCast]
    norm_num
  refine ⟨hr, by rw [maxIntOf]; norm_num, h16, ?_, h8, ?_⟩
  · rw [h16, maxIntOf]
    norm_num
  · rw [h8]
    norm_num

/-! ## Lemmas: Chunk Tiler -/

/-- **C6 counterexample**: with `chunkLength = 4`, `R·D = 6.6` the code writes
`⌊4 × 0.65⌋ = 2` tail samples (the `fwrite` size argument truncates the
double), not `round(2.6) = 3` as claimed. -/
theorem chunkTiler_round_counterexample :
    tilingPlan 4 1 (33 / 5) = (1, 2) ∧
    lroundQ ((4 : ℚ) * ((1 : ℚ) * (33 / 5) / 4 - ((1 : ℕ) : ℚ))) = 3 ∧
    ((tilingPlan 4 1 (33 / 5)).2 : ℤ) ≠ 3 := by
  have hplan : tilingPlan 4 1 (33 / 5) = (1, 2) := by
    rw [tilingPlan]
    norm_num
    decide
  have hround : lroundQ ((4 : ℚ) * ((1 : ℚ) * (33 / 5) / 4 - ((1 : ℕ) : ℚ))) = 3 := by
    rw [show (4 : ℚ) * ((1 : ℚ) * (33 / 5) / 4 - ((1 : ℕ) : ℚ)) = 13 / 5 by norm_num]
    rw [lroundQ, if_pos (by norm_num)]
    norm_num
  exact ⟨hplan, hround, by rw [hplan]; norm_num⟩

/-- **C6 (amended)** (Chunk Tiler).  For `chunkLength ≥ 1`, `R ≥ 1`, `D > 0`:
`wholeChunks = ⌊R·D / chunkLength⌋`, the tail length is the *truncation*
`⌊chunkLength × (R·D/chunkLength − wholeChunks)⌋` (not the rounding), the
tail is shorter than one chunk, the total emitted sample count is exactly
`⌊R·D⌋`, and that total is within one sample of `round(R·D)`. -/
theorem chunkTiler_spec (count rate : ℕ) (dur : ℚ)
    (hc : 1 ≤ count) (hr : 1 ≤ rate) (hd : 0 < dur) :
    ((tilingPlan count rate dur).1 : ℤ) * count + (tilingPlan count rate dur).2 =
      ⌊(rate : ℚ) * dur⌋ ∧
    (tilingPlan count rate dur).2 < count ∧
    |⌊(rate : ℚ) * dur⌋ - lroundQ ((rate : ℚ) * dur)| ≤ 1 := by
  have hcQ : (0 : ℚ) < (count : ℚ) := by exact_mod_cast hc
  have hrQ : (1 : ℚ) ≤ (rate : ℚ) := by exact_mod_cast hr
  have hRD : (0 : ℚ) < (rate : ℚ) * dur := by nlinarith
  have hlround : |⌊(rate : ℚ) * dur⌋ - lroundQ ((rate : ℚ) * dur)| ≤ 1 := by
    rw [lroundQ, if_pos (le_of_lt hRD)]
    have hm1 : ⌊(rate : ℚ) * dur⌋ ≤ ⌊(rate : ℚ) * dur + 1 / 2⌋ :=
      Int.floor_mono (by linarith)
    have hm2 : ⌊(rate : ℚ) * dur + 1 / 2⌋ < ⌊(rate : ℚ) * dur⌋ + 2 := by
      apply Int.floor_lt.mpr
      push_cast
      linarith [Int.lt_floor_add_one ((rate : ℚ) * dur)]
    rw [abs_le]
    omega
  have h0 : (0 : ℚ) ≤ (rate : ℚ) * dur / (count : ℚ) := le_of_lt (div_pos hRD hcQ)
  have hfl0 : (0 : ℤ) ≤ ⌊(rate : ℚ) * dur / (count : ℚ)⌋ := Int.floor_nonneg.mpr h0
  have hle : ((⌊(rate : ℚ) * dur / (count : ℚ)⌋ : ℤ) : ℚ) ≤ (rate : ℚ) * dur / (count : ℚ) :=
    Int.floor_le _
  have hlt : (rate : ℚ) * dur / (count : ℚ) < ⌊(rate : ℚ) * dur / (count : ℚ)⌋ + 1 :=
    Int.lt_floor_add_one _
  simp only [tilingPlan]
  generalize hw : ⌊(rate : ℚ) * dur / (count : ℚ)⌋ = w at hfl0 hle hlt ⊢
  have hwn : ((w.toNat : ℕ) : ℤ) = w := Int.toNat_of_nonneg hfl0
  have hwnQ : ((w.toNat : ℕ) : ℚ) = (w : ℚ) := by exact_mod_cast hwn
  simp only [hwnQ]
  by_cases ht : 0 < (rate : ℚ) * dur / (count : ℚ) - (w : ℚ)
  · rw [if_pos ht]
    have hprod : (count : ℚ) * ((rate : ℚ) * dur / (count : ℚ) - (w : ℚ)) =
        (rate : ℚ) * dur - ((w * count : ℤ) : ℚ) := by
      push_cast
      field_simp
      ring
    have hfloor : ⌊(count : ℚ) * ((rate : ℚ) * dur / (count : ℚ) - (w : ℚ))⌋ =
        ⌊(rate : ℚ) * dur⌋ - w * count := by
      rw [hprod, Int.floor_sub_int]
    have htail0 : (0 : ℤ) ≤ ⌊(rate : ℚ) * dur⌋ - w * count := by
      rw [← hfloor]
      exact Int.floor_nonneg.mpr (by positivity)
    have hcast2 :
        ((⌊(count : ℚ) * ((rate : ℚ) * dur / (count : ℚ) - (w : ℚ))⌋.toNat : ℕ) : ℤ) =
        ⌊(rate : ℚ) * dur⌋ - w * count := by
      rw [hfloor]
      exact Int.toNat_of_nonneg htail0
    refine ⟨?_, ?_, hlround⟩
    · rw [hcast2, hwn]
      ring
    · have hlt2 : (count : ℚ) * ((rate : ℚ) * dur / (count : ℚ) - (w : ℚ)) < (count : ℚ) := by
        nlinarith
      have hfl_lt : ⌊(count : ℚ) * ((rate : ℚ) * dur / (count : ℚ) - (w : ℚ))⌋ < (count : ℤ) := by
        apply Int.floor_lt.mpr
        push_cast
        linarith
      omega
  · rw [if_neg ht]
    push_neg at ht
    have h1 : (rate : ℚ) * dur / (count : ℚ) = (w : ℚ) := by linarith
    have h2 : (rate : ℚ) * dur = (w : ℚ) * (count : ℚ) := by
      rw [← h1]
      field_simp
    have hfRD : ⌊(rate : ℚ) * dur⌋ = w * count := by
      rw [h2, show (w : ℚ) * (count : ℚ) = ((w * count : ℤ) : ℚ) by push_cast; ring,
        Int.floor_intCast]
    refine ⟨?_, by omega, hlround⟩
    rw [hwn, hfRD]
    norm_num

/-- Witness for `chunkTiler_spec` at `chunkLength = 4`, `R = 1`, `D = 33/5`. -/
theorem chunkTiler_spec_witness :
    ((1 : ℕ) ≤ 4 ∧ (1 : ℕ) ≤ 1 ∧ (0 : ℚ) < 33 / 5) ∧
    (((tilingPlan 4 1 (33 / 5)).1 : ℤ) * 4 + (tilingPlan 4 1 (33 / 5)).2 =
       ⌊((1 : ℕ) : ℚ) * (33 / 5)⌋ ∧
     (tilingPlan 4 1 (33 / 5)).2 < 4 ∧
     |⌊((1 : ℕ) : ℚ) * (33 / 5)⌋ - lroundQ (((1 : ℕ) : ℚ) * (33 / 5))| ≤ 1) :=
  ⟨⟨by norm_num, by norm_num, by norm_num⟩,
    chunkTiler_spec 4 1 (33 / 5) (by norm_num) (by norm_num) (by norm_num)⟩

/-! ## Lemmas: Ditherer and pipeline -/

/-- **C7** (floating-point output is never dithered).  When the sample format
is floating-point, the guard of lines 838-841 is false for every dither flag
and every generator stream: the samples handed to the encoder are exactly the
normalized chunk, and the built buffer is the float serialization of that
unmodified chunk. -/
theorem floatNeverDithered (p : Parameters) (rand : ℕ → ℤ) (w : List ℚ)
    (s tenPow : ℚ → ℚ) (hfmt : p.sampleFormat = SampleFormat.floatPCM) :
    encoderInput rand p w = w ∧
    audioBufferBuildM s tenPow rand p =
      Encoded.floats (waveChunkGenerate s tenPow p) := by
  have h1 : ∀ w' : List ℚ, encoderInput rand p w' = w' := by
    intro w'
    rw [encoderInput, if_neg]
    rw [hfmt]
    simp
  refine ⟨h1 w, ?_⟩
  rw [audioBufferBuildM]
  rw [h1]
  rw [hfmt]

/-- Witness for `floatNeverDithered`: a 32-bit float parameter set with the
dither flag raised. -/
theorem floatNeverDithered_witness :
    (Parameters.mk [2] 1 (-1) 4 32 .floatPCM .sine true).sampleFormat =
      SampleFormat.floatPCM ∧
    encoderInput (fun _ => 0) (Parameters.mk [2] 1 (-1) 4 32 .floatPCM .sine true) [1] = [1] ∧
    audioBufferBuildM id id (fun _ => 0)
        (Parameters.mk [2] 1 (-1) 4 32 .floatPCM .sine true) =
      Encoded.floats (waveChunkGenerate id id
        (Parameters.mk [2] 1 (-1) 4 32 .floatPCM .sine true)) :=
  ⟨rfl, (floatNeverDithered _ (fun _ => 0) [1] id id rfl).1,
    (floatNeverDithered _ (fun _ => 0) [1] id id rfl).2⟩

/-- **C9** (determinism).  The embedded pipeline `waveChunkGenerate` +
`audioBufferBuild` is a pure function of the parameter set, the `sin`/`pow`
models and the generator stream: runs on identical inputs (including an
identical generator stream, the one shared mutable resource) produce
identical encoded buffers; and when dither is inapplicable (float format) or
disabled, the output does not depend on the generator stream at all. -/
theorem pipelineDeterministic (s tenPow : ℚ → ℚ) (r₁ r₂ : ℕ → ℤ) (p : Parameters) :
    (r₁ = r₂ → audioBufferBuildM s tenPow r₁ p = audioBufferBuildM s tenPow r₂ p) ∧
    (p.sampleFormat = SampleFormat.floatPCM ∨ p.applyDither = false →
      audioBufferBuildM s tenPow r₁ p = audioBufferBuildM s tenPow r₂ p) := by
  constructor
  · intro h
    rw [h]
  · intro h
    have hno : ∀ (r : ℕ → ℤ) (w : List ℚ), encoderInput r p w = w := by
      intro r w
      rw [encoderInput, if_neg]
      rcases h with h | h <;> rw [h] <;> simp
    rw [audioBufferBuildM, audioBufferBuildM, hno, hno]

/-- Witness for `pipelineDeterministic`: identical streams on a dither-free
integer parameter set. -/
theorem pipelineDeterministic_witness :
    ((fun _ : ℕ => (0 : ℤ)) = (fun _ : ℕ => (0 : ℤ)) ∧
      (Parameters.mk [2] 1 (-1) 4 16 .intPCM .sine false).applyDither = false) ∧
    audioBufferBuildM id id (fun _ => 0)
        (Parameters.mk [2] 1 (-1) 4 16 .intPCM .sine false) =
      audioBufferBuildM id id (fun _ => 0)
        (Parameters.mk [2] 1 (-1) 4 16 .intPCM .sine false) :=
  ⟨⟨rfl, rfl⟩,
    (pipelineDeterministic id id (fun _ => 0) (fun _ => 0)
      (Parameters.mk [2] 1 (-1) 4 16 .intPCM .sine false)).2 (Or.inr rfl)⟩

end Wavgen
